import Mathlib

/-!
Shallow embedding of the memory service found in `src/app/memory_service.py`
and `src/app/database.py`.

Modelling choices:
- A `MemoryData` record mirrors the `MemoryData` dataclass / the `memories`
  table row: `id` and `user_id` are opaque identifiers modelled as `Nat`
  (UUIDs in the source), `content` is the character list of the text,
  timestamps are `Nat` instants.
- The database table is a `List MemoryData`.  The `id` column is declared
  `primary_key=True` in `MemoryModel`, so an insert whose id already exists
  raises an integrity error; `create_memory` models this with `Option`
  (`none` = the raised `SQLAlchemyError`, after which the rollback leaves the
  store unchanged).
- `uuid4()` and `datetime.now(timezone.utc)` are nondeterministic inputs of
  the source; they become explicit `memory_id` / `now` parameters.
- A SQL `SELECT ... WHERE id = mid AND user_id = uid` with
  `scalar_one_or_none` becomes `List.find?` with the same predicate (the
  primary key guarantees at most one row matches when ids are unique).
- `str.lower` becomes `Char.toLower` mapped over the characters, and the
  SQL `contains` (substring) test becomes list-infix containment.
- Python `str.strip()` removes leading and trailing whitespace; the guard
  `not query or not query.strip()` is the test "query is empty or all of
  its characters are whitespace", with `isPySpace` covering the ASCII
  whitespace characters stripped by Python.
- `ORDER BY created_at DESC` becomes a sort by the decidable total relation
  `createdDesc` (descending creation time).
-/

structure MemoryData where
  id : Nat
  user_id : Nat
  content : List Char
  created_at : Nat
  updated_at : Nat
deriving DecidableEq

/-- Ids of all rows of the store, in row order. -/
def storeIds (store : List MemoryData) : List Nat :=
  store.map (fun m => m.id)

/-- Uniqueness of the primary-key column `id` across the table; enforced by
`primary_key=True` on `MemoryModel.id` in `src/app/database.py`. -/
def NodupIds (store : List MemoryData) : Prop :=
  (storeIds store).Nodup

instance (store : List MemoryData) : Decidable (NodupIds store) :=
  inferInstanceAs (Decidable (storeIds store).Nodup)

/-- The WHERE clause shared by get, update and delete in
`src/app/memory_service.py`: `MemoryModel.id == memory_id,
MemoryModel.user_id == user_id`. -/
def matchKey (memory_id user_id : Nat) (m : MemoryData) : Bool :=
  m.id == memory_id && m.user_id == user_id

/-- `MemoryService.create_memory`: allocates `memory_id` (the `uuid4()`
result, passed in explicitly), stamps `created_at = updated_at = now`, and
inserts the row.  `none` models the integrity error raised when the primary
key already exists, in which case the session rollback leaves the table
unchanged. -/
def create_memory (store : List MemoryData) (memory_id now user_id : Nat)
    (content : List Char) : Option (MemoryData × List MemoryData) :=
  if store.any (fun m => m.id == memory_id) then
    none
  else
    let m : MemoryData :=
      { id := memory_id, user_id := user_id, content := content,
        created_at := now, updated_at := now }
    some (m, store ++ [m])

/-- `MemoryService.get_memory`: select by id and owner, `None` when no row
matches (absent id and wrong owner collapse to the same outcome). -/
def get_memory (store : List MemoryData) (memory_id user_id : Nat) :
    Option MemoryData :=
  store.find? (matchKey memory_id user_id)

/-- `MemoryService.update_memory`: select by id and owner; if absent return
`None` leaving the table unchanged; otherwise overwrite `content` and set
`updated_at := now` on the matching row and return the updated record. -/
def update_memory (store : List MemoryData) (memory_id : Nat)
    (content : List Char) (user_id now : Nat) :
    Option MemoryData × List MemoryData :=
  match store.find? (matchKey memory_id user_id) with
  | none => (none, store)
  | some m =>
      (some { m with content := content, updated_at := now },
       store.map (fun r =>
         if matchKey memory_id user_id r then
           { r with content := content, updated_at := now }
         else r))

/-- `MemoryService.delete_memory`: select by id and owner; if a row matches,
delete it (deletion is by primary key) and return `true`; otherwise return
`false` leaving the table unchanged. -/
def delete_memory (store : List MemoryData) (memory_id user_id : Nat) :
    Bool × List MemoryData :=
  match store.find? (matchKey memory_id user_id) with
  | none => (false, store)
  | some _ => (true, store.filter (fun r => !(r.id == memory_id)))

/-- `MemoryService.clear_memories`: delete every row and report the count. -/
def clear_memories (store : List MemoryData) : Nat × List MemoryData :=
  (store.length, [])

/-- ASCII whitespace as treated by Python `str.strip()` with no argument. -/
def isPySpace (c : Char) : Bool :=
  c == ' ' || c == '\t' || c == '\n' || c == '\r' || c == '\x0b' || c == '\x0c'

/-- Python `str.lower()` restricted to the characters handled by
`Char.toLower`. -/
def lowerStr (s : List Char) : List Char :=
  s.map Char.toLower

/-- SQL `contains` (substring) test used by the search filter. -/
def containsSub (needle hay : List Char) : Bool :=
  decide (needle <:+: hay)

/-- Result ordering of `search_memories`: `ORDER BY created_at DESC`. -/
def createdDesc (a b : MemoryData) : Prop :=
  b.created_at ≤ a.created_at

instance : DecidableRel createdDesc := fun a b =>
  inferInstanceAs (Decidable (b.created_at ≤ a.created_at))

instance : IsTotal MemoryData createdDesc :=
  ⟨fun a b => Nat.le_total b.created_at a.created_at⟩

instance : IsTrans MemoryData createdDesc :=
  ⟨fun _ _ _ h1 h2 => Nat.le_trans h2 h1⟩

/-- `MemoryService.search_memories`: short-circuit to `[]` when the query is
empty or blank (`not query or not query.strip()`); otherwise return the rows
owned by `user_id` whose lowercased content contains the lowercased query,
ordered by creation time descending.  A `SELECT` does not modify the table,
so the function is pure in the store. -/
def search_memories (store : List MemoryData) (user_id : Nat)
    (query : List Char) : List MemoryData :=
  if query.isEmpty || query.all isPySpace then
    []
  else
    List.insertionSort createdDesc
      (store.filter (fun m =>
        m.user_id == user_id && containsSub (lowerStr query) (lowerStr m.content)))

/-- One service call with its nondeterministic inputs (`uuid4` result and
call time) made explicit. -/
inductive MemOp where
  | create (memory_id now user_id : Nat) (content : List Char)
  | get (memory_id user_id : Nat)
  | update (memory_id : Nat) (content : List Char) (user_id now : Nat)
  | search (user_id : Nat) (query : List Char)
  | delete (memory_id user_id : Nat)
  | clear
deriving DecidableEq

/-- Effect of one call on the table.  Reads (`get`, `search`) leave it
unchanged; a failed `create` (duplicate primary key) is rolled back. -/
def applyOp (store : List MemoryData) : MemOp → List MemoryData
  | .create mid now uid c =>
      match create_memory store mid now uid c with
      | none => store
      | some (_, s2) => s2
  | .get _ _ => store
  | .update mid c uid now => (update_memory store mid c uid now).2
  | .search _ _ => store
  | .delete mid uid => (delete_memory store mid uid).2
  | .clear => (clear_memories store).2

/-- Table after a sequence of calls. -/
def runOps (store : List MemoryData) (ops : List MemOp) : List MemoryData :=
  ops.foldl applyOp store

/-- Wall-clock time after a call: `create` and `update` read the clock
(`datetime.now`), the other calls do not. -/
def opTime (t : Nat) : MemOp → Nat
  | .create _ now _ _ => now
  | .update _ _ _ now => now
  | _ => t

/-- The clock values observed along a sequence of calls never decrease,
starting from lower bound `t`. -/
def monoTimesB (t : Nat) : List MemOp → Bool
  | [] => true
  | op :: ops => decide (t ≤ opTime t op) && monoTimesB (opTime t op) ops

/-- Every row was created no later than it was updated, and no later than
the clock lower bound `t`. -/
def TimeBound (store : List MemoryData) (t : Nat) : Prop :=
  ∀ r ∈ store, r.created_at ≤ r.updated_at ∧ r.updated_at ≤ t

instance (store : List MemoryData) (t : Nat) : Decidable (TimeBound store t) :=
  inferInstanceAs (Decidable (∀ r ∈ store, _ ∧ _))

/-- The fresh id consumed by a call, when it is a `create`. -/
def opCreatedId : MemOp → Option Nat
  | .create mid _ _ _ => some mid
  | _ => none

/-- All ids handed to `create` (the `uuid4()` outputs) along a sequence. -/
def createdIds (ops : List MemOp) : List Nat :=
  ops.filterMap opCreatedId

/-- Ids returned by the successful `create` calls of a sequence, in call
order (a failed `create` raises and returns nothing). -/
def createsReturned (store : List MemoryData) : List MemOp → List Nat
  | [] => []
  | op :: ops =>
      let rest := createsReturned (applyOp store op) ops
      match op with
      | MemOp.create mid now uid c =>
          match create_memory store mid now uid c with
          | none => rest
          | some _ => mid :: rest
      | _ => rest

/-! Helper lemmas about the key lookup shared by get, update and delete. -/

theorem matchKey_eq_true {mid uid : Nat} {m : MemoryData} :
    matchKey mid uid m = true ↔ (m.id = mid ∧ m.user_id = uid) := by
  simp [matchKey]

theorem id_inj {store : List MemoryData} (h : NodupIds store)
    {r r2 : MemoryData} (hr : r ∈ store) (hr2 : r2 ∈ store)
    (hid : r.id = r2.id) : r = r2 :=
  List.inj_on_of_nodup_map h hr hr2 hid

theorem find_wrong_owner {store : List MemoryData} {R : MemoryData} {B : Nat}
    (h : NodupIds store) (hR : R ∈ store) (hB : R.user_id ≠ B) :
    store.find? (matchKey R.id B) = none := by
  rw [List.find?_eq_none]
  intro r hr hp
  rw [matchKey_eq_true] at hp
  exact hB (id_inj h hr hR hp.1 ▸ hp.2)

theorem find_no_id {store : List MemoryData} {nid : Nat} (B : Nat)
    (hnid : ∀ r ∈ store, r.id ≠ nid) :
    store.find? (matchKey nid B) = none := by
  rw [List.find?_eq_none]
  intro r hr hp
  rw [matchKey_eq_true] at hp
  exact hnid r hr hp.1

theorem find_matchKey_self {store : List MemoryData} {R : MemoryData}
    (h : NodupIds store) (hR : R ∈ store) :
    store.find? (matchKey R.id R.user_id) = some R := by
  cases hf : store.find? (matchKey R.id R.user_id) with
  | none =>
      rw [List.find?_eq_none] at hf
      exact absurd (matchKey_eq_true.mpr ⟨rfl, rfl⟩) (hf R hR)
  | some r2 =>
      have hm2 := List.mem_of_find?_eq_some hf
      have hp2 := matchKey_eq_true.mp (List.find?_some hf)
      rw [id_inj h hm2 hR hp2.1]

/-- C1: get returns the stored record exactly when a record with the given
id exists and is owned by the caller; whenever the id is absent or the
owner differs, it returns the same not-found result `none`, so a caller
cannot distinguish a nonexistent record from an unauthorized one. -/
theorem get_memory_auth (store : List MemoryData) (mid uid : Nat)
    (h : NodupIds store) :
    (∀ r : MemoryData, get_memory store mid uid = some r ↔
        (r ∈ store ∧ r.id = mid ∧ r.user_id = uid))
  ∧ (get_memory store mid uid = none ↔
        ∀ r ∈ store, ¬(r.id = mid ∧ r.user_id = uid)) := by
  constructor
  · intro r
    constructor
    · intro hf
      have hm := List.mem_of_find?_eq_some hf
      have hp := matchKey_eq_true.mp (List.find?_some hf)
      exact ⟨hm, hp⟩
    · rintro ⟨hm, hid, huid⟩
      cases hf : store.find? (matchKey mid uid) with
      | none =>
          rw [List.find?_eq_none] at hf
          exact absurd (matchKey_eq_true.mpr ⟨hid, huid⟩) (hf r hm)
      | some r2 =>
          have hm2 := List.mem_of_find?_eq_some hf
          have hp2 := matchKey_eq_true.mp (List.find?_some hf)
          have hr2 : r2 = r := id_inj h hm2 hm (by rw [hp2.1, hid])
          rw [get_memory, hf, hr2]
  · rw [get_memory, List.find?_eq_none]
    constructor
    · intro hf r hr hp
      exact hf r hr (matchKey_eq_true.mpr hp)
    · intro hf r hr hp
      exact hf r hr (matchKey_eq_true.mp hp)

/-- Witness for C1 on a concrete two-record store: the owner retrieves the
record, and the foreign caller gets the same `none` as for a fresh id. -/
theorem get_memory_auth_witness :
    get_memory
      [{ id := 1, user_id := 7, content := "I love pizza".toList,
         created_at := 0, updated_at := 0 }] 1 7 =
      some { id := 1, user_id := 7, content := "I love pizza".toList,
             created_at := 0, updated_at := 0 } :=
  ((get_memory_auth
      [{ id := 1, user_id := 7, content := "I love pizza".toList,
         created_at := 0, updated_at := 0 }] 1 7 (by decide)).1
    { id := 1, user_id := 7, content := "I love pizza".toList,
      created_at := 0, updated_at := 0 }).mpr ⟨by decide, rfl, rfl⟩

/-- C2: for a record R owned by A and any other user B, get, update and
delete called with R's id and caller B return exactly what they return on
an id present nowhere in the store, the store is unchanged, and R is still
present afterward. -/
theorem ownership_isolation (store : List MemoryData) (R : MemoryData)
    (B nid now : Nat) (c : List Char) (h : NodupIds store) (hR : R ∈ store)
    (hB : R.user_id ≠ B) (hnid : ∀ r ∈ store, r.id ≠ nid) :
    get_memory store R.id B = get_memory store nid B
  ∧ update_memory store R.id c B now = update_memory store nid c B now
  ∧ delete_memory store R.id B = delete_memory store nid B
  ∧ get_memory store R.id B = none
  ∧ update_memory store R.id c B now = (none, store)
  ∧ delete_memory store R.id B = (false, store)
  ∧ R ∈ (update_memory store R.id c B now).2
  ∧ R ∈ (delete_memory store R.id B).2 := by
  have h1 := find_wrong_owner h hR hB
  have h2 := find_no_id B hnid
  refine ⟨?_, ?_, ?_, ?_, ?_, ?_, ?_, ?_⟩ <;>
    simp [get_memory, update_memory, delete_memory, h1, h2, hR]

/-- Witness for C2: user 9 probing user 7's record gets the not-found
result and leaves the record in place. -/
theorem ownership_isolation_witness :
    get_memory
      [{ id := 1, user_id := 7, content := "I love pizza".toList,
         created_at := 0, updated_at := 0 }] 1 9 = none :=
  (ownership_isolation
      [{ id := 1, user_id := 7, content := "I love pizza".toList,
         created_at := 0, updated_at := 0 }]
      { id := 1, user_id := 7, content := "I love pizza".toList,
        created_at := 0, updated_at := 0 }
      9 99 5 "x".toList (by decide) (by decide) (by decide)
      (by decide)).2.2.2.1

/-! Update preserves the id column, hence primary-key uniqueness. -/

theorem ids_update {store : List MemoryData} {mid : Nat} {c : List Char}
    {uid now : Nat} :
    storeIds ((update_memory store mid c uid now).2) = storeIds store := by
  cases hf : store.find? (matchKey mid uid) with
  | none => rw [update_memory, hf]
  | some m =>
      rw [update_memory, hf]
      simp only [storeIds, List.map_map]
      refine List.map_congr_left ?_
      intro r _
      by_cases hm : matchKey mid uid r = true <;> simp [hm]

theorem nodupIds_update {store : List MemoryData} {mid : Nat} {c : List Char}
    {uid now : Nat} (h : NodupIds store) :
    NodupIds ((update_memory store mid c uid now).2) := by
  rw [NodupIds, ids_update]
  exact h

/-- C3: update with an absent id or a wrong owner returns not-found and
changes nothing; a successful update returns the record with the new
content, `updated_at` equal to the call time and all other fields intact,
changes no other record, and a successive successful update at a later or
equal time never decreases `updated_at` and still preserves `created_at`. -/
theorem update_memory_spec (store : List MemoryData) (mid uid now : Nat)
    (c : List Char) (h : NodupIds store) :
    ((∀ r ∈ store, ¬(r.id = mid ∧ r.user_id = uid)) →
        update_memory store mid c uid now = (none, store))
  ∧ (∀ R ∈ store, R.id = mid → R.user_id = uid →
        (update_memory store mid c uid now).1 =
          some { R with content := c, updated_at := now }
      ∧ { R with content := c, updated_at := now } ∈
          (update_memory store mid c uid now).2
      ∧ (∀ r ∈ store, r.id ≠ mid → r ∈ (update_memory store mid c uid now).2)
      ∧ (∀ r ∈ (update_memory store mid c uid now).2, r.id ≠ mid → r ∈ store)
      ∧ (∀ c2 now2 R2, now ≤ now2 →
          (update_memory (update_memory store mid c uid now).2 mid c2 uid
              now2).1 = some R2 →
          ({ R with content := c, updated_at := now } : MemoryData).updated_at
              ≤ R2.updated_at
            ∧ R2.created_at = R.created_at)) := by
  constructor
  · intro habs
    have hf : store.find? (matchKey mid uid) = none := by
      rw [List.find?_eq_none]
      intro r hr hp
      exact habs r hr (matchKey_eq_true.mp hp)
    rw [update_memory, hf]
  · intro R hR hid huid
    have hf : store.find? (matchKey mid uid) = some R := by
      have := find_matchKey_self h hR
      rw [hid, huid] at this
      exact this
    have hpost :
        (update_memory store mid c uid now).2 =
          store.map (fun r =>
            if matchKey mid uid r then
              { r with content := c, updated_at := now }
            else r) := by
      rw [update_memory, hf]
    refine ⟨by rw [update_memory, hf], ?_, ?_, ?_, ?_⟩
    · rw [hpost]
      have : ({ R with content := c, updated_at := now } : MemoryData) =
          (fun r =>
            if matchKey mid uid r then
              { r with content := c, updated_at := now }
            else r) R := by
        simp [matchKey_eq_true.mpr ⟨hid, huid⟩]
      rw [this]
      exact List.mem_map_of_mem _ hR
    · intro r hr hrid
      rw [hpost]
      have : (fun r =>
            if matchKey mid uid r then
              { r with content := c, updated_at := now }
            else r) r = r := by
        have : matchKey mid uid r = false := by
          rw [Bool.eq_false_iff]
          intro hm
          exact hrid (matchKey_eq_true.mp hm).1
        simp [this]
      rw [← this]
      exact List.mem_map_of_mem _ hr
    · intro r hr hrid
      rw [hpost] at hr
      obtain ⟨r0, hr0, hfr⟩ := List.mem_map.mp hr
      by_cases hm : matchKey mid uid r0 = true
      · exfalso
        apply hrid
        rw [← hfr]
        simp [hm, (matchKey_eq_true.mp hm).1]
      · rw [← hfr]
        simpa [hm] using hr0
    · intro c2 now2 R2 hle hsome
      set R1 : MemoryData := { R with content := c, updated_at := now } with hR1
      have hR1mem : R1 ∈ (update_memory store mid c uid now).2 := by
        rw [hpost, hR1]
        have : ({ R with content := c, updated_at := now } : MemoryData) =
            (fun r =>
              if matchKey mid uid r then
                { r with content := c, updated_at := now }
              else r) R := by
          simp [matchKey_eq_true.mpr ⟨hid, huid⟩]
        rw [this]
        exact List.mem_map_of_mem _ hR
      have hnd : NodupIds ((update_memory store mid c uid now).2) :=
        nodupIds_update h
      have hf2 : ((update_memory store mid c uid now).2).find?
          (matchKey mid uid) = some R1 := by
        have := find_matchKey_self hnd hR1mem
        have h1 : R1.id = mid := hid
        have h2 : R1.user_id = uid := huid
        rw [h1, h2] at this
        exact this
      rw [update_memory, hf2] at hsome
      have hR2 : R2 = { R1 with content := c2, updated_at := now2 } :=
        (Option.some.injEq _ _).mp hsome.symm
      constructor
      · rw [hR2]; exact hle
      · rw [hR2]

/-- Witness for C3 on a concrete store: updating record 1 as its owner at
time 4 returns the record with the new content and `updated_at = 4`. -/
theorem update_memory_spec_witness :
    (update_memory
      [{ id := 1, user_id := 7, content := "I love pizza".toList,
         created_at := 0, updated_at := 0 }] 1 "I enjoy pasta".toList 7 4).1 =
      some { id := 1, user_id := 7, content := "I enjoy pasta".toList,
             created_at := 0, updated_at := 4 } :=
  ((update_memory_spec
      [{ id := 1, user_id := 7, content := "I love pizza".toList,
         created_at := 0, updated_at := 0 }] 1 7 4 "I enjoy pasta".toList
      (by decide)).2
    { id := 1, user_id := 7, content := "I love pizza".toList,
      created_at := 0, updated_at := 0 }
    (by decide) rfl rfl).1

/-- C4: delete returns true exactly when a record with the given id and
owner exists; then that record and only that record is removed; otherwise
it returns false and the store is unchanged. -/
theorem delete_memory_spec (store : List MemoryData) (mid uid : Nat)
    (h : NodupIds store) :
    ((delete_memory store mid uid).1 = true ↔
        ∃ r ∈ store, r.id = mid ∧ r.user_id = uid)
  ∧ ((∀ r ∈ store, ¬(r.id = mid ∧ r.user_id = uid)) →
        delete_memory store mid uid = (false, store))
  ∧ (∀ R ∈ store, R.id = mid → R.user_id = uid →
        R ∉ (delete_memory store mid uid).2
      ∧ (∀ r ∈ store, r ≠ R → r ∈ (delete_memory store mid uid).2)
      ∧ (∀ r ∈ (delete_memory store mid uid).2, r ∈ store ∧ r ≠ R)) := by
  refine ⟨?_, ?_, ?_⟩
  · constructor
    · intro ht
      cases hf : store.find? (matchKey mid uid) with
      | none =>
          rw [delete_memory, hf] at ht
          exact absurd ht (by simp)
      | some m =>
          exact ⟨m, List.mem_of_find?_eq_some hf,
            matchKey_eq_true.mp (List.find?_some hf)⟩
    · rintro ⟨r, hr, hp⟩
      cases hf : store.find? (matchKey mid uid) with
      | none =>
          rw [List.find?_eq_none] at hf
          exact absurd (matchKey_eq_true.mpr hp) (hf r hr)
      | some m => rw [delete_memory, hf]
  · intro habs
    have hf : store.find? (matchKey mid uid) = none := by
      rw [List.find?_eq_none]
      intro r hr hp
      exact habs r hr (matchKey_eq_true.mp hp)
    rw [delete_memory, hf]
  · intro R hR hid huid
    have hf : store.find? (matchKey mid uid) = some R := by
      have := find_matchKey_self h hR
      rw [hid, huid] at this
      exact this
    have hpost : (delete_memory store mid uid).2 =
        store.filter (fun r => !(r.id == mid)) := by
      rw [delete_memory, hf]
    refine ⟨?_, ?_, ?_⟩
    · rw [hpost]
      intro hmem
      have := (List.mem_filter.mp hmem).2
      simp [hid] at this
    · intro r hr hne
      rw [hpost]
      refine List.mem_filter.mpr ⟨hr, ?_⟩
      simp only [Bool.not_eq_eq_eq_not, Bool.not_true, beq_eq_false_iff_ne,
        ne_eq]
      intro hrid
      exact hne (id_inj h hr hR (hrid.trans hid.symm))
    · intro r hr
      rw [hpost] at hr
      have hmem := List.mem_filter.mp hr
      refine ⟨hmem.1, ?_⟩
      intro hEq
      have := hmem.2
      rw [hEq] at this
      simp [hid] at this

/-- Witness for C4: deleting record 1 as its owner returns true. -/
theorem delete_memory_spec_witness :
    (delete_memory
      [{ id := 1, user_id := 7, content := "I love pizza".toList,
         created_at := 0, updated_at := 0 }] 1 7).1 = true :=
  (delete_memory_spec
      [{ id := 1, user_id := 7, content := "I love pizza".toList,
         created_at := 0, updated_at := 0 }] 1 7 (by decide)).1.mpr
    ⟨{ id := 1, user_id := 7, content := "I love pizza".toList,
       created_at := 0, updated_at := 0 }, by decide, rfl, rfl⟩

/-- C5: for a non-blank query, search returns exactly the caller's records
whose lowercased content contains the lowercased query (same multiset as
the row filter), the result is ordered by creation time descending, and the
call leaves the store unchanged. -/
theorem search_memories_spec (store : List MemoryData) (uid : Nat)
    (q : List Char) (hq : ¬∀ c ∈ q, isPySpace c = true) :
    (∀ r : MemoryData, r ∈ search_memories store uid q ↔
        (r ∈ store ∧ r.user_id = uid ∧ lowerStr q <:+: lowerStr r.content))
  ∧ (search_memories store uid q).Perm
      (store.filter (fun m =>
        m.user_id == uid && containsSub (lowerStr q) (lowerStr m.content)))
  ∧ List.Sorted createdDesc (search_memories store uid q)
  ∧ applyOp store (MemOp.search uid q) = store := by
  have hall : q.all isPySpace = false := by
    rw [Bool.eq_false_iff]
    intro hc
    exact hq (List.all_eq_true.mp hc)
  have hne : q.isEmpty = false := by
    rw [Bool.eq_false_iff]
    intro hc
    apply hq
    rw [List.isEmpty_iff.mp hc]
    intro c hc2
    exact absurd hc2 (List.not_mem_nil c)
  have hsearch : search_memories store uid q =
      List.insertionSort createdDesc
        (store.filter (fun m =>
          m.user_id == uid &&
            containsSub (lowerStr q) (lowerStr m.content))) := by
    rw [search_memories, hne, hall]
    rfl
  refine ⟨?_, ?_, ?_, rfl⟩
  · intro r
    rw [hsearch, List.mem_insertionSort, List.mem_filter]
    simp [containsSub]
  · rw [hsearch]
    exact List.perm_insertionSort _ _
  · rw [hsearch]
    exact List.sorted_insertionSort createdDesc _

/-- Witness for C5: searching a concrete two-record store for "i" returns
the records newest-first, a sorted result. -/
theorem search_memories_spec_witness :
    List.Sorted createdDesc
      (search_memories
        [{ id := 1, user_id := 7, content := "I love pizza".toList,
           created_at := 0, updated_at := 0 },
         { id := 2, user_id := 7, content := "I enjoy pasta".toList,
           created_at := 3, updated_at := 5 }] 7 "i".toList) :=
  (search_memories_spec
      [{ id := 1, user_id := 7, content := "I love pizza".toList,
         created_at := 0, updated_at := 0 },
       { id := 2, user_id := 7, content := "I enjoy pasta".toList,
         created_at := 3, updated_at := 5 }] 7 "i".toList
      (by decide)).2.2.1

/-- C6: a query that is empty or all whitespace short-circuits to the empty
list, whatever the store contains. -/
theorem search_blank (store : List MemoryData) (uid : Nat) (q : List Char)
    (hq : ∀ c ∈ q, isPySpace c = true) :
    search_memories store uid q = [] := by
  have : q.all isPySpace = true := List.all_eq_true.mpr hq
  rw [search_memories, this]
  simp

/-- Witness for C6: a three-space query on a nonempty store returns `[]`. -/
theorem search_blank_witness :
    search_memories
      [{ id := 1, user_id := 7, content := "I love pizza".toList,
         created_at := 0, updated_at := 0 }] 7 "   ".toList = [] :=
  search_blank
    [{ id := 1, user_id := 7, content := "I love pizza".toList,
       created_at := 0, updated_at := 0 }] 7 "   ".toList (by decide)

/-- C10: the query is matched verbatim after lowercasing, with no trimming:
on a store holding one record with content "I love pizza", the padded query
" pizza " (non-blank, so not short-circuited) finds nothing although the
lowercased content does contain "pizza", which the unpadded query finds. -/
theorem search_query_not_trimmed :
    search_memories
      [{ id := 1, user_id := 7, content := "I love pizza".toList,
         created_at := 0, updated_at := 0 }] 7 " pizza ".toList = []
  ∧ containsSub "pizza".toList
      (lowerStr "I love pizza".toList) = true
  ∧ search_memories
      [{ id := 1, user_id := 7, content := "I love pizza".toList,
         created_at := 0, updated_at := 0 }] 7 "pizza".toList =
      [{ id := 1, user_id := 7, content := "I love pizza".toList,
         created_at := 0, updated_at := 0 }] := by
  refine ⟨by decide, by decide, by decide⟩

/-! Preservation of the timestamp bound along a sequence of calls. -/

theorem timeBound_applyOp {s : List MemoryData} {t : Nat} (op : MemOp)
    (hb : TimeBound s t) (ht : t ≤ opTime t op) :
    TimeBound (applyOp s op) (opTime t op) := by
  cases op with
  | create mid now uid c =>
      have hT : opTime t (MemOp.create mid now uid c) = now := rfl
      rw [hT] at ht ⊢
      by_cases hdup : s.any (fun m => m.id == mid) = true
      · have happ : applyOp s (MemOp.create mid now uid c) = s := by
          simp [applyOp, create_memory, hdup]
        rw [happ]
        intro r hr
        exact ⟨(hb r hr).1, Nat.le_trans (hb r hr).2 ht⟩
      · have happ : applyOp s (MemOp.create mid now uid c) =
            s ++ [{ id := mid, user_id := uid, content := c,
                    created_at := now, updated_at := now }] := by
          simp [applyOp, create_memory, hdup]
        rw [happ]
        intro r hr
        rcases List.mem_append.mp hr with hr2 | hr2
        · exact ⟨(hb r hr2).1, Nat.le_trans (hb r hr2).2 ht⟩
        · have : r = { id := mid, user_id := uid, content := c,
                       created_at := now, updated_at := now } := by
            simpa using hr2
          rw [this]
          exact ⟨Nat.le_refl now, Nat.le_refl now⟩
  | get mid uid => exact hb
  | update mid c uid now =>
      have hT : opTime t (MemOp.update mid c uid now) = now := rfl
      rw [hT] at ht ⊢
      cases hf : s.find? (matchKey mid uid) with
      | none =>
          have happ : applyOp s (MemOp.update mid c uid now) = s := by
            simp [applyOp, update_memory, hf]
          rw [happ]
          intro r hr
          exact ⟨(hb r hr).1, Nat.le_trans (hb r hr).2 ht⟩
      | some m =>
          have happ : applyOp s (MemOp.update mid c uid now) =
              s.map (fun r =>
                if matchKey mid uid r then
                  { r with content := c, updated_at := now }
                else r) := by
            simp [applyOp, update_memory, hf]
          rw [happ]
          intro r hr
          obtain ⟨r0, hr0, hfr⟩ := List.mem_map.mp hr
          by_cases hm : matchKey mid uid r0 = true
          · rw [← hfr]
            simp only [hm, if_true]
            exact ⟨Nat.le_trans (Nat.le_trans (hb r0 hr0).1
              (Nat.le_trans (hb r0 hr0).2 ht)) (Nat.le_refl now),
              Nat.le_refl now⟩
          · rw [← hfr]
            simp only [hm, if_false]
            exact ⟨(hb r0 hr0).1, Nat.le_trans (hb r0 hr0).2 ht⟩
  | search uid q => exact hb
  | delete mid uid =>
      cases hf : s.find? (matchKey mid uid) with
      | none =>
          have happ : applyOp s (MemOp.delete mid uid) = s := by
            simp [applyOp, delete_memory, hf]
          rw [happ]
          exact hb
      | some m =>
          have happ : applyOp s (MemOp.delete mid uid) =
              s.filter (fun r => !(r.id == mid)) := by
            simp [applyOp, delete_memory, hf]
          rw [happ]
          intro r hr
          exact hb r (List.mem_filter.mp hr).1
  | clear =>
      intro r hr
      exact absurd hr (List.not_mem_nil r)

theorem timeBound_runOps (ops : List MemOp) :
    ∀ (s : List MemoryData) (t : Nat), TimeBound s t →
      monoTimesB t ops = true →
      TimeBound (runOps s ops) (ops.foldl opTime t) := by
  induction ops with
  | nil => intro s t hb _; exact hb
  | cons op ops ih =>
      intro s t hb hm
      rw [monoTimesB, Bool.and_eq_true] at hm
      have h1 : t ≤ opTime t op := of_decide_eq_true hm.1
      have hrun : runOps s (op :: ops) = runOps (applyOp s op) ops := rfl
      have hfold : (op :: ops).foldl opTime t = ops.foldl opTime (opTime t op) :=
        rfl
      rw [hrun, hfold]
      exact ih (applyOp s op) (opTime t op) (timeBound_applyOp op hb h1) hm.2

/-- C7: create stamps `created_at` and `updated_at` with the same instant,
and along any sequence of calls whose clock readings never decrease every
record of the store satisfies `created_at ≤ updated_at`. -/
theorem updated_after_created (t0 : Nat) (store : List MemoryData)
    (ops : List MemOp) (hb : TimeBound store t0)
    (hm : monoTimesB t0 ops = true) :
    (∀ (s : List MemoryData) (mid now uid : Nat) (c : List Char)
        (m : MemoryData) (s2 : List MemoryData),
        create_memory s mid now uid c = some (m, s2) →
        m.created_at = now ∧ m.updated_at = now)
  ∧ ∀ r ∈ runOps store ops, r.created_at ≤ r.updated_at := by
  constructor
  · intro s mid now uid c m s2 hc
    rw [create_memory] at hc
    by_cases hdup : s.any (fun m => m.id == mid) = true
    · rw [if_pos hdup] at hc
      exact absurd hc (by simp)
    · rw [if_neg hdup] at hc
      simp only [Option.some.injEq, Prod.mk.injEq] at hc
      rw [← hc.1]
      exact ⟨rfl, rfl⟩
  · intro r hr
    exact (timeBound_runOps ops store t0 hb hm r hr).1

/-- Witness for C7: after a create at time 0 followed by an update at time
4, the surviving record satisfies the invariant. -/
theorem updated_after_created_witness :
    ({ id := 1, user_id := 7, content := "b".toList, created_at := 0,
       updated_at := 4 } : MemoryData).created_at ≤
      ({ id := 1, user_id := 7, content := "b".toList, created_at := 0,
         updated_at := 4 } : MemoryData).updated_at :=
  (updated_after_created 0 []
      [MemOp.create 1 0 7 "a".toList, MemOp.update 1 "b".toList 7 4]
      (by decide) (by decide)).2
    { id := 1, user_id := 7, content := "b".toList, created_at := 0,
      updated_at := 4 }
    (by decide)

/-! Id bookkeeping along a sequence of calls. -/

theorem ids_applyOp {s : List MemoryData} {op : MemOp} :
    ∀ i ∈ storeIds (applyOp s op), i ∈ storeIds s ∨ opCreatedId op = some i := by
  cases op with
  | create mid now uid c =>
      by_cases hdup : s.any (fun m => m.id == mid) = true
      · have happ : applyOp s (MemOp.create mid now uid c) = s := by
          simp [applyOp, create_memory, hdup]
        rw [happ]
        exact fun i hi => Or.inl hi
      · have happ : applyOp s (MemOp.create mid now uid c) =
            s ++ [{ id := mid, user_id := uid, content := c,
                    created_at := now, updated_at := now }] := by
          simp [applyOp, create_memory, hdup]
        rw [happ]
        intro i hi
        rw [storeIds, List.map_append, List.mem_append] at hi
        rcases hi with hi | hi
        · exact Or.inl hi
        · right
          rw [opCreatedId]
          simp only [List.map_cons, List.map_nil, List.mem_singleton] at hi
          rw [hi]
  | get mid uid => exact fun i hi => Or.inl hi
  | update mid c uid now =>
      intro i hi
      have hid : applyOp s (MemOp.update mid c uid now) =
          (update_memory s mid c uid now).2 := rfl
      rw [hid, ids_update] at hi
      exact Or.inl hi
  | search uid q => exact fun i hi => Or.inl hi
  | delete mid uid =>
      intro i hi
      cases hf : s.find? (matchKey mid uid) with
      | none =>
          have happ : applyOp s (MemOp.delete mid uid) = s := by
            simp [applyOp, delete_memory, hf]
          rw [happ] at hi
          exact Or.inl hi
      | some m =>
          have happ : applyOp s (MemOp.delete mid uid) =
              s.filter (fun r => !(r.id == mid)) := by
            simp [applyOp, delete_memory, hf]
          rw [happ] at hi
          left
          obtain ⟨r0, hr0, hfr⟩ := List.mem_map.mp hi
          exact List.mem_map.mpr ⟨r0, (List.mem_filter.mp hr0).1, hfr⟩
  | clear =>
      intro i hi
      exact absurd hi (List.not_mem_nil i)

theorem nodupIds_applyOp {s : List MemoryData} (op : MemOp)
    (h : NodupIds s) : NodupIds (applyOp s op) := by
  cases op with
  | create mid now uid c =>
      by_cases hdup : s.any (fun m => m.id == mid) = true
      · have happ : applyOp s (MemOp.create mid now uid c) = s := by
          simp [applyOp, create_memory, hdup]
        rw [happ]
        exact h
      · have happ : applyOp s (MemOp.create mid now uid c) =
            s ++ [{ id := mid, user_id := uid, content := c,
                    created_at := now, updated_at := now }] := by
          simp [applyOp, create_memory, hdup]
        rw [happ, NodupIds, storeIds, List.map_append, List.nodup_append]
        refine ⟨h, List.nodup_singleton mid, ?_⟩
        intro i hi hi2
        simp only [List.map_cons, List.map_nil, List.mem_singleton] at hi2
        rw [List.any_eq_true] at hdup
        obtain ⟨m0, hm0, hfm⟩ := List.mem_map.mp hi
        exact hdup ⟨m0, hm0, by rw [beq_iff_eq, hfm, hi2]⟩
  | get mid uid => exact h
  | update mid c uid now => exact nodupIds_update h
  | search uid q => exact h
  | delete mid uid =>
      cases hf : s.find? (matchKey mid uid) with
      | none =>
          have happ : applyOp s (MemOp.delete mid uid) = s := by
            simp [applyOp, delete_memory, hf]
          rw [happ]
          exact h
      | some m =>
          have happ : applyOp s (MemOp.delete mid uid) =
              s.filter (fun r => !(r.id == mid)) := by
            simp [applyOp, delete_memory, hf]
          rw [happ]
          have h2 : (List.map (fun m => m.id) s).Nodup := h
          show (List.map (fun m => m.id)
            (s.filter (fun r => !(r.id == mid)))).Nodup
          exact List.Nodup.sublist
            (List.Sublist.map (fun m => m.id) (List.filter_sublist s)) h2
  | clear => exact List.nodup_nil

theorem nodupIds_runOps (ops : List MemOp) :
    ∀ s : List MemoryData, NodupIds s → NodupIds (runOps s ops) := by
  induction ops with
  | nil => exact fun s h => h
  | cons op ops ih =>
      intro s h
      exact ih (applyOp s op) (nodupIds_applyOp op h)

theorem ids_runOps (ops : List MemOp) :
    ∀ (s : List MemoryData) (i : Nat), i ∈ storeIds (runOps s ops) →
      i ∈ storeIds s ∨ i ∈ createdIds ops := by
  induction ops with
  | nil => exact fun s i hi => Or.inl hi
  | cons op ops ih =>
      intro s i hi
      have hrun : runOps s (op :: ops) = runOps (applyOp s op) ops := rfl
      rw [hrun] at hi
      rcases ih (applyOp s op) i hi with h1 | h1
      · rcases ids_applyOp i h1 with h2 | h2
        · exact Or.inl h2
        · right
          rw [createdIds, List.filterMap_cons, h2]
          exact List.mem_cons_self i _
      · right
        rw [createdIds, List.filterMap_cons]
        cases hc : opCreatedId op with
        | none => exact h1
        | some j => exact List.mem_cons_of_mem j h1

theorem createsReturned_sublist (ops : List MemOp) :
    ∀ s : List MemoryData,
      (createsReturned s ops).Sublist (createdIds ops) := by
  induction ops with
  | nil => exact fun s => List.Sublist.refl []
  | cons op ops ih =>
      intro s
      cases op with
      | create mid now uid c =>
          have hcr : createdIds (MemOp.create mid now uid c :: ops) =
              mid :: createdIds ops := by
            rw [createdIds, List.filterMap_cons]
            rfl
          rw [hcr]
          cases hc : create_memory s mid now uid c with
          | none =>
              have : createsReturned s (MemOp.create mid now uid c :: ops) =
                  createsReturned (applyOp s (MemOp.create mid now uid c))
                    ops := by
                simp [createsReturned, hc]
              rw [this]
              exact (ih _).cons mid
          | some p =>
              have : createsReturned s (MemOp.create mid now uid c :: ops) =
                  mid :: createsReturned
                    (applyOp s (MemOp.create mid now uid c)) ops := by
                simp [createsReturned, hc]
              rw [this]
              exact (ih _).cons₂ mid
      | get mid uid => exact ih _
      | update mid c uid now => exact ih _
      | search uid q => exact ih _
      | delete mid uid => exact ih _
      | clear => exact ih _

/-- C8: when the ids handed to create (the `uuid4()` outputs) are pairwise
distinct, all ids returned by the successful creates of a sequence are
pairwise distinct, the store never holds two records with the same id, and
the id consumed by any create in the sequence was never generated before
nor carried by any record of the store at that point — in particular an id
freed by a deletion is never handed out again. -/
theorem create_ids_unique (ops : List MemOp)
    (h : (createdIds ops).Nodup) :
    (createsReturned [] ops).Nodup
  ∧ NodupIds (runOps [] ops)
  ∧ ∀ (ops1 : List MemOp) (mid now uid : Nat) (c : List Char)
      (ops2 : List MemOp),
      ops = ops1 ++ MemOp.create mid now uid c :: ops2 →
      mid ∉ createdIds ops1 ∧ ∀ r ∈ runOps [] ops1, r.id ≠ mid := by
  refine ⟨List.Nodup.sublist (createsReturned_sublist ops []) h,
    nodupIds_runOps ops [] (by simp [NodupIds, storeIds]), ?_⟩
  intro ops1 mid now uid c ops2 hops
  subst hops
  rw [createdIds, List.filterMap_append] at h
  have hsplit : List.filterMap opCreatedId
      (MemOp.create mid now uid c :: ops2) =
      mid :: List.filterMap opCreatedId ops2 := by
    rw [List.filterMap_cons]
    rfl
  rw [hsplit, List.nodup_append] at h
  have hmid : mid ∉ List.filterMap opCreatedId ops1 := by
    intro hmem
    exact h.2.2 hmem (List.mem_cons_self mid _)
  refine ⟨hmid, ?_⟩
  intro r hr hEq
  have hmemid : r.id ∈ storeIds (runOps [] ops1) :=
    List.mem_map.mpr ⟨r, hr, rfl⟩
  rcases ids_runOps ops1 [] r.id hmemid with h3 | h3
  · exact absurd h3 (by simp [storeIds])
  · rw [hEq] at h3
    exact hmid h3

/-- Witness for C8: a create-delete-create sequence with fresh ids yields
pairwise distinct returned ids. -/
theorem create_ids_unique_witness :
    (createsReturned []
      [MemOp.create 1 0 7 "a".toList, MemOp.create 2 1 7 "b".toList,
       MemOp.delete 1 7, MemOp.create 3 2 7 "c".toList]).Nodup :=
  (create_ids_unique
    [MemOp.create 1 0 7 "a".toList, MemOp.create 2 1 7 "b".toList,
     MemOp.delete 1 7, MemOp.create 3 2 7 "c".toList] (by decide)).1
